import Mathlib

/-!
Shallow embedding of `src/seller.py` (price/stock synchronisation pipeline
between an external stock feed and the Ozon seller API).

Conventions of the embedding:
* Feed rows (`watch_remnants` entries, Python dicts with keys "Код",
  "Количество", "Цена") become the structure `WatchRecord` with fields
  `code`, `qty`, `price`, all strings (the Python code applies `str(...)`
  to the code and quantity before using them).
* Python's fallible `int(...)` on a string becomes `pyInt : String → Option Int`
  (surrounding whitespace stripped, optional sign, decimal digits); a feed
  row on which `int` raises makes the embedded function return `none`.
* `create_stocks` mutates its `offer_ids` list argument in place
  (`offer_ids.remove(...)`); the embedding makes the mutation explicit by
  returning the final value of the caller's list as the second component.
* `divide` is a generator over `range(0, len(lst), n)`; it is embedded as a
  structurally recursive function producing the list of chunks (for `n = 0`
  Python's `range` raises `ValueError`; the embedding returns `[]` there and
  every statement about `divide` assumes `0 < n`).
* The paginated offer-id enumeration loop of `get_offer_ids` runs against a
  remote server; the server is modelled as an arbitrary sequence of
  responses, one per loop iteration, and the unbounded `while True` loop is
  embedded with explicit fuel.
-/

namespace Seller

/-- One row of the downloaded stock feed: keys "Код" (code), "Количество"
(quantity, free text) and "Цена" (price string) of the Python dict. -/
structure WatchRecord where
  code : String
  qty : String
  price : String
deriving DecidableEq

/-- One element of the list built by `create_stocks`:
the dict `{"offer_id": ..., "stock": ...}`. -/
structure StockUpdate where
  offer_id : String
  stock : Int
deriving DecidableEq

/-- One element of the list built by `create_prices`, field for field the
dict literal of `create_prices` in the source. -/
structure PriceUpdate where
  auto_action_enabled : String
  currency_code : String
  offer_id : String
  old_price : String
  price : String
deriving DecidableEq

/-- Reads a nonempty all-digit character list as a natural number;
`none` otherwise. Helper for `pyInt`. -/
def digitsToNat (cs : List Char) : Option Nat :=
  if cs ≠ [] ∧ cs.all Char.isDigit then
    some (cs.foldl (fun a c => 10 * a + (c.toNat - 48)) 0)
  else
    none

/-- Surrounding whitespace removed from a character list. Helper for
`pyInt` (kernel-reducible counterpart of `String.trim`). -/
def trimChars (cs : List Char) : List Char :=
  ((cs.dropWhile Char.isWhitespace).reverse.dropWhile Char.isWhitespace).reverse

/-- Python's `int(s)` for a string `s`: surrounding whitespace ignored, an
optional sign, then decimal digits; raises (here: `none`) otherwise.
(Underscore digit grouping of Python ≥ 3.6 is not modelled; no input in the
development uses it.) -/
def pyInt (s : String) : Option Int :=
  match trimChars s.toList with
  | '-' :: rest => (digitsToNat rest).map (fun n => -(n : Int))
  | '+' :: rest => (digitsToNat rest).map (fun n => (n : Int))
  | cs => (digitsToNat cs).map (fun n => (n : Int))

/-- Python's `s.split(sep)` for a one-character separator, on character
lists: the maximal separator-free segments, in order. Never returns `[]`. -/
def splitOnChar (c : Char) : List Char → List (List Char)
  | [] => [[]]
  | a :: rest =>
    if a = c then
      [] :: splitOnChar c rest
    else
      match splitOnChar c rest with
      | [] => [[a]]
      | r :: rs => (a :: r) :: rs

/-- `price_conversion` of the source:
`re.sub("[^0-9]", "", price.split(".")[0])` — the part of the string before
the first "." with every non-digit character removed. -/
def price_conversion (price : String) : String :=
  String.mk (((splitOnChar '.' price.toList).headD []).filter Char.isDigit)

/-- The stock value computed for one matched feed row (lines 266–272 of the
source): 100 for quantity text ">10", 0 for quantity text "1", otherwise
Python's `int` of the quantity (`none` when `int` raises). -/
def stock_of_qty (qty : String) : Option Int :=
  if qty = ">10" then some 100
  else if qty = "1" then some 0
  else pyInt qty

/-- The first loop of `create_stocks`: walks the feed; a row whose code is
(still) in `offer_ids` contributes a stock entry (`stock_of_qty` of its
quantity) and removes the code from `offer_ids` (Python `list.remove`:
first occurrence). Returns the entries in feed order together with the
final value of the `offer_ids` list; `none` when `int(...)` raises on some
matched row. -/
def create_stocks_loop : List WatchRecord → List String → Option (List StockUpdate × List String)
  | [], ids => some ([], ids)
  | w :: ws, ids =>
    if w.code ∈ ids then
      (stock_of_qty w.qty).bind fun st =>
        (create_stocks_loop ws (ids.erase w.code)).map fun p =>
          (⟨w.code, st⟩ :: p.1, p.2)
    else
      create_stocks_loop ws ids

/-- `create_stocks` of the source: the matched-row entries of
`create_stocks_loop` followed by a zero-stock entry for every offer id left
in the (mutated) list. The second component is the final value of the
caller's `offer_ids` list — the in-place mutation made explicit. -/
def create_stocks (watch_remnants : List WatchRecord) (offer_ids : List String) :
    Option (List StockUpdate × List String) :=
  match create_stocks_loop watch_remnants offer_ids with
  | none => none
  | some (stocks, remaining) =>
    some (stocks ++ remaining.map (fun offer_id => ⟨offer_id, 0⟩), remaining)

/-- `create_prices` of the source: one price dict per feed row whose code is
in `offer_ids`, in feed order; `offer_ids` is not mutated here. -/
def create_prices (watch_remnants : List WatchRecord) (offer_ids : List String) :
    List PriceUpdate :=
  match watch_remnants with
  | [] => []
  | w :: ws =>
    if w.code ∈ offer_ids then
      ⟨"UNKNOWN", "RUB", w.code, "0", price_conversion w.price⟩ ::
        create_prices ws offer_ids
    else
      create_prices ws offer_ids

/-- Fuel-indexed body of `divide`: with `fuel` at least `lst.length` and
`0 < n` this is exactly `for i in range(0, len(lst), n): yield lst[i:i+n]`. -/
def divideAux (n : Nat) : Nat → List α → List (List α)
  | _, [] => []
  | 0, _ :: _ => []
  | fuel + 1, a :: rest => ((a :: rest).take n) :: divideAux n fuel ((a :: rest).drop n)

/-- `divide` of the source, as the list of yielded chunks. For `n = 0`
Python's `range(0, len, 0)` raises `ValueError`; the embedding returns `[]`
and all statements assume `0 < n`. -/
def divide (lst : List α) (n : Nat) : List (List α) :=
  if n = 0 then [] else divideAux n lst.length lst

/-- The composition performed by `main` (lines 386–395 of the source):
`create_stocks` over the fetched offer-id list, then `create_prices` over
the SAME list object, i.e. over the list as `create_stocks` left it. -/
def main_pipeline (watch_remnants : List WatchRecord) (offer_ids : List String) :
    Option (List StockUpdate × List PriceUpdate) :=
  match create_stocks watch_remnants offer_ids with
  | none => none
  | some (stocks, remaining) =>
    some (stocks, create_prices watch_remnants remaining)

/-- One item of a `listProducts` response page. -/
structure PLProduct where
  offer_id : String
deriving DecidableEq

/-- One `listProducts` response: the fields `get_offer_ids` reads
(`items`, `total`, `last_id`). -/
structure ProductListResult where
  items : List PLProduct
  total : Int
  last_id : String

/-- The `while True` pagination loop of `get_offer_ids`, with the server
modelled as an arbitrary response sequence (`server k` answers the call of
iteration `k`) and explicit fuel. Iteration `k` extends the accumulator with
`(server k).items` and stops when the reported total equals the accumulated
length; `none` means the fuel ran out before the loop broke. -/
def get_offer_ids_loop (server : Nat → ProductListResult) :
    Nat → Nat → List PLProduct → Option (List PLProduct)
  | 0, _, _ => none
  | fuel + 1, k, acc =>
    let acc2 := acc ++ (server k).items
    if (server k).total = (acc2.length : Int) then some acc2
    else get_offer_ids_loop server fuel (k + 1) acc2

/-- `get_offer_ids` of the source under the fuel-indexed loop: the offer ids
of the accumulated products. -/
def get_offer_ids (server : Nat → ProductListResult) (fuel : Nat) : Option (List String) :=
  (get_offer_ids_loop server fuel 0 []).map (List.map (fun p => p.offer_id))

/-- Number of items accumulated by the pagination loop after `k` completed
iterations. -/
def accCount (server : Nat → ProductListResult) : Nat → Nat
  | 0 => 0
  | k + 1 => accCount server k + (server k).items.length

/-! ### Helper lemmas -/

theorem splitOnChar_ne_nil (c : Char) (l : List Char) : splitOnChar c l ≠ [] := by
  cases l with
  | nil => simp [splitOnChar]
  | cons a rest =>
    by_cases h : a = c
    · simp [splitOnChar, h]
    · simp only [splitOnChar, if_neg h]
      cases splitOnChar c rest <;> simp

theorem splitOnChar_headD (c : Char) (l : List Char) :
    (splitOnChar c l).headD [] = l.takeWhile (fun a => a != c) := by
  induction l with
  | nil => simp [splitOnChar]
  | cons a rest ih =>
    by_cases h : a = c
    · subst h
      simp [splitOnChar, List.takeWhile_cons]
    · simp only [splitOnChar, if_neg h]
      cases hs : splitOnChar c rest with
      | nil => exact absurd hs (splitOnChar_ne_nil c rest)
      | cons r rs =>
        rw [List.takeWhile_cons]
        have hab : (a != c) = true := by simp [bne_iff_ne, h]
        rw [hab]
        simp only [List.headD, if_true]
        rw [← ih, hs]
        rfl

theorem create_stocks_eq (ws : List WatchRecord) (ids : List String)
    (st : List StockUpdate) (rem : List String)
    (h : create_stocks ws ids = some (st, rem)) :
    ∃ st1, create_stocks_loop ws ids = some (st1, rem) ∧
      st = st1 ++ rem.map (fun id => ⟨id, 0⟩) := by
  unfold create_stocks at h
  cases hr : create_stocks_loop ws ids with
  | none => rw [hr] at h; cases h
  | some p =>
    obtain ⟨st1, rem1⟩ := p
    rw [hr] at h
    simp only [Option.some.injEq, Prod.mk.injEq] at h
    obtain ⟨h1, h2⟩ := h
    subst h2
    exact ⟨st1, rfl, h1.symm⟩

theorem create_stocks_loop_perm (ws : List WatchRecord) :
    ∀ (ids : List String) (st : List StockUpdate) (rem : List String),
      create_stocks_loop ws ids = some (st, rem) →
      (st.map (fun u => u.offer_id) ++ rem).Perm ids := by
  induction ws with
  | nil =>
    intro ids st rem h
    simp only [create_stocks_loop, Option.some.injEq, Prod.mk.injEq] at h
    obtain ⟨h1, h2⟩ := h
    subst h1; subst h2
    simp
  | cons w ws ih =>
    intro ids st rem h
    simp only [create_stocks_loop] at h
    by_cases hm : w.code ∈ ids
    · rw [if_pos hm, Option.bind_eq_some] at h
      obtain ⟨stv, hq, h⟩ := h
      rw [Option.map_eq_some'] at h
      obtain ⟨p, hr, hpair⟩ := h
      obtain ⟨st2, rem2⟩ := p
      simp only [Prod.mk.injEq] at hpair
      obtain ⟨h1, h2⟩ := hpair
      subst h1; subst h2
      have hperm := ih (ids.erase w.code) st2 rem2 hr
      simp only [List.map_cons, List.cons_append]
      exact (hperm.cons w.code).trans (List.perm_cons_erase hm).symm
    · rw [if_neg hm] at h
      exact ih ids st rem h

theorem create_stocks_loop_mem (ws : List WatchRecord) :
    ∀ (ids : List String) (st : List StockUpdate) (rem : List String),
      create_stocks_loop ws ids = some (st, rem) →
      ∀ u ∈ st, ∃ w ∈ ws, w.code = u.offer_id ∧ stock_of_qty w.qty = some u.stock := by
  induction ws with
  | nil =>
    intro ids st rem h u hu
    simp only [create_stocks_loop, Option.some.injEq, Prod.mk.injEq] at h
    obtain ⟨h1, _⟩ := h
    subst h1
    cases hu
  | cons w ws ih =>
    intro ids st rem h u hu
    simp only [create_stocks_loop] at h
    by_cases hm : w.code ∈ ids
    · rw [if_pos hm, Option.bind_eq_some] at h
      obtain ⟨stv, hq, h⟩ := h
      rw [Option.map_eq_some'] at h
      obtain ⟨p, hr, hpair⟩ := h
      obtain ⟨st2, rem2⟩ := p
      simp only [Prod.mk.injEq] at hpair
      obtain ⟨h1, h2⟩ := hpair
      subst h1; subst h2
      rcases List.mem_cons.mp hu with h0 | h0
      · subst h0
        exact ⟨w, List.mem_cons_self w ws, rfl, hq⟩
      · obtain ⟨w2, hw2, he, hs⟩ := ih (ids.erase w.code) st2 rem2 hr u h0
        exact ⟨w2, List.mem_cons_of_mem w hw2, he, hs⟩
    · rw [if_neg hm] at h
      obtain ⟨w2, hw2, he, hs⟩ := ih ids st rem h u hu
      exact ⟨w2, List.mem_cons_of_mem w hw2, he, hs⟩

theorem create_stocks_loop_no_match (ws : List WatchRecord) :
    ∀ ids : List String, (∀ w ∈ ws, w.code ∉ ids) →
      create_stocks_loop ws ids = some ([], ids) := by
  induction ws with
  | nil => intro ids _; rfl
  | cons w ws ih =>
    intro ids hnm
    simp only [create_stocks_loop]
    rw [if_neg (hnm w (List.mem_cons_self w ws))]
    exact ih ids (fun w2 hw2 => hnm w2 (List.mem_cons_of_mem w hw2))

theorem create_stocks_loop_remaining (ws : List WatchRecord) :
    ∀ (ids : List String) (st : List StockUpdate) (rem : List String), ids.Nodup →
      create_stocks_loop ws ids = some (st, rem) →
      rem = ids.filter (fun id => ws.all (fun w => w.code != id)) := by
  induction ws with
  | nil =>
    intro ids st rem _ h
    simp only [create_stocks_loop, Option.some.injEq, Prod.mk.injEq] at h
    obtain ⟨_, h2⟩ := h
    subst h2
    simp
  | cons w ws ih =>
    intro ids st rem hnd h
    simp only [create_stocks_loop] at h
    by_cases hm : w.code ∈ ids
    · rw [if_pos hm, Option.bind_eq_some] at h
      obtain ⟨stv, hq, h⟩ := h
      rw [Option.map_eq_some'] at h
      obtain ⟨p, hr, hpair⟩ := h
      obtain ⟨st2, rem2⟩ := p
      simp only [Prod.mk.injEq] at hpair
      obtain ⟨h1, h2⟩ := hpair
      subst h1; subst h2
      have hrec := ih (ids.erase w.code) st2 rem2 (hnd.erase w.code) hr
      rw [hrec, hnd.erase_eq_filter w.code, List.filter_filter]
      apply List.filter_congr
      intro a _
      by_cases hac : a = w.code
      · subst hac
        simp [List.all_cons, bne_self_eq_false]
      · have h1 : (a != w.code) = true := by simp [bne_iff_ne, hac]
        have h2 : (w.code != a) = true := by simp [bne_iff_ne, Ne.symm hac]
        simp [List.all_cons, h1, h2]
    · rw [if_neg hm] at h
      have hrec := ih ids st rem hnd h
      rw [hrec]
      apply List.filter_congr
      intro a ha
      have : w.code ≠ a := fun he => hm (he ▸ ha)
      simp [List.all_cons, bne_iff_ne, this]

theorem create_prices_mem (ws : List WatchRecord) :
    ∀ (ids : List String) (p : PriceUpdate), p ∈ create_prices ws ids →
      p.auto_action_enabled = "UNKNOWN" ∧ p.currency_code = "RUB" ∧ p.old_price = "0" ∧
      p.offer_id ∈ ids ∧ ∃ w ∈ ws, w.code = p.offer_id ∧ p.price = price_conversion w.price := by
  induction ws with
  | nil => intro ids p hp; simp [create_prices] at hp
  | cons w ws ih =>
    intro ids p hp
    simp only [create_prices] at hp
    by_cases hm : w.code ∈ ids
    · rw [if_pos hm] at hp
      rcases List.mem_cons.mp hp with h0 | h0
      · subst h0
        exact ⟨rfl, rfl, rfl, hm, w, List.mem_cons_self w ws, rfl, rfl⟩
      · obtain ⟨a, b, c, d, w2, hw2, he, hpr⟩ := ih ids p h0
        exact ⟨a, b, c, d, w2, List.mem_cons_of_mem w hw2, he, hpr⟩
    · rw [if_neg hm] at hp
      obtain ⟨a, b, c, d, w2, hw2, he, hpr⟩ := ih ids p hp
      exact ⟨a, b, c, d, w2, List.mem_cons_of_mem w hw2, he, hpr⟩

theorem create_prices_filter_matched (ws : List WatchRecord) (ids : List String) :
    create_prices (ws.filter (fun w => decide (w.code ∈ ids))) ids = create_prices ws ids := by
  induction ws with
  | nil => rfl
  | cons w ws ih =>
    by_cases hm : w.code ∈ ids
    · simp [create_prices, List.filter_cons, hm, ih]
    · simp [create_prices, List.filter_cons, hm, ih]

theorem map_offer_id_zeros (rem : List String) :
    (rem.map (fun id => (⟨id, 0⟩ : StockUpdate))).map (fun u => u.offer_id) = rem := by
  induction rem with
  | nil => rfl
  | cons a t iht => simp only [List.map_cons, iht]

theorem divideAux_join (n : Nat) (hn : 0 < n) :
    ∀ (fuel : Nat) (lst : List α), lst.length ≤ fuel → (divideAux n fuel lst).flatten = lst := by
  intro fuel
  induction fuel with
  | zero =>
    intro lst hl
    have h0 : lst = [] := List.length_eq_zero.mp (Nat.le_zero.mp hl)
    subst h0
    rfl
  | succ fuel ih =>
    intro lst hl
    cases lst with
    | nil => rfl
    | cons a rest =>
      simp only [divideAux, List.flatten_cons]
      rw [ih ((a :: rest).drop n) ?_]
      · exact List.take_append_drop n (a :: rest)
      · simp only [List.length_drop, List.length_cons]
        simp only [List.length_cons] at hl
        omega

theorem divideAux_chunk_bounds (n : Nat) (hn : 0 < n) :
    ∀ (fuel : Nat) (lst : List α), lst.length ≤ fuel →
      ∀ c ∈ divideAux n fuel lst, 0 < c.length ∧ c.length ≤ n := by
  intro fuel
  induction fuel with
  | zero =>
    intro lst hl c hc
    have h0 : lst = [] := List.length_eq_zero.mp (Nat.le_zero.mp hl)
    subst h0
    cases hc
  | succ fuel ih =>
    intro lst hl c hc
    cases lst with
    | nil => cases hc
    | cons a rest =>
      simp only [divideAux] at hc
      rcases List.mem_cons.mp hc with h0 | h0
      · subst h0
        simp only [List.length_take, List.length_cons]
        omega
      · refine ih ((a :: rest).drop n) ?_ c h0
        simp only [List.length_drop, List.length_cons]
        simp only [List.length_cons] at hl
        omega

theorem divideAux_dropLast_length (n : Nat) (hn : 0 < n) :
    ∀ (fuel : Nat) (lst : List α), lst.length ≤ fuel →
      ∀ c ∈ (divideAux n fuel lst).dropLast, c.length = n := by
  intro fuel
  induction fuel with
  | zero =>
    intro lst hl c hc
    have h0 : lst = [] := List.length_eq_zero.mp (Nat.le_zero.mp hl)
    subst h0
    cases hc
  | succ fuel ih =>
    intro lst hl c hc
    cases lst with
    | nil => cases hc
    | cons a rest =>
      simp only [divideAux] at hc
      have hrest : ((a :: rest).drop n).length ≤ fuel := by
        simp only [List.length_drop, List.length_cons]
        simp only [List.length_cons] at hl
        omega
      cases hrec : divideAux n fuel ((a :: rest).drop n) with
      | nil =>
        rw [hrec] at hc
        cases hc
      | cons r rs =>
        rw [hrec, List.dropLast_cons₂] at hc
        rcases List.mem_cons.mp hc with h0 | h0
        · subst h0
          have hd : (a :: rest).drop n ≠ [] := by
            intro he
            rw [he] at hrec
            simp [divideAux] at hrec
          have hlen : n < (a :: rest).length := by
            by_contra hle
            exact hd (List.drop_eq_nil_of_le (by omega))
          simp only [List.length_take]
          omega
        · rw [← hrec] at h0
          exact ih ((a :: rest).drop n) hrest c h0

theorem get_offer_ids_loop_some (server : Nat → ProductListResult) :
    ∀ (fuel k : Nat) (acc : List PLProduct), acc.length = accCount server k →
      (get_offer_ids_loop server fuel k acc).isSome = true →
      ∃ j, (server j).total = (accCount server (j + 1) : Int) := by
  intro fuel
  induction fuel with
  | zero =>
    intro k acc _ h
    simp [get_offer_ids_loop] at h
  | succ fuel ih =>
    intro k acc hlen h
    simp only [get_offer_ids_loop] at h
    by_cases hc : (server k).total = ((acc ++ (server k).items).length : Int)
    · refine ⟨k, ?_⟩
      rw [hc]
      have hnat : (acc ++ (server k).items).length = accCount server (k + 1) := by
        simp [accCount, List.length_append, hlen]
      exact_mod_cast hnat
    · rw [if_neg hc] at h
      refine ih (k + 1) (acc ++ (server k).items) ?_ h
      simp [accCount, List.length_append, hlen]

theorem get_offer_ids_loop_reaches (server : Nat → ProductListResult) (k0 : Nat)
    (hk : (server k0).total = (accCount server (k0 + 1) : Int)) :
    ∀ (fuel k : Nat) (acc : List PLProduct), acc.length = accCount server k →
      k ≤ k0 → k0 < k + fuel → (get_offer_ids_loop server fuel k acc).isSome = true := by
  intro fuel
  induction fuel with
  | zero =>
    intro k acc _ h1 h2
    omega
  | succ fuel ih =>
    intro k acc hlen hk1 hk2
    simp only [get_offer_ids_loop]
    by_cases hc : (server k).total = ((acc ++ (server k).items).length : Int)
    · rw [if_pos hc]
      rfl
    · rw [if_neg hc]
      have hkne : k ≠ k0 := by
        intro he
        subst he
        apply hc
        rw [hk]
        have hnat : (acc ++ (server k).items).length = accCount server (k + 1) := by
          simp [accCount, List.length_append, hlen]
        exact_mod_cast hnat.symm
      refine ih (k + 1) (acc ++ (server k).items) ?_ (by omega) (by omega)
      simp [accCount, List.length_append, hlen]

/-! ### Claim theorems -/

/-- C1: evaluation of the orchestrator's composition (stock derivation, then
price derivation over the same — mutated — offer-id list) on offer ids
["X","Y"] and the single-record feed. The stock list is as the spec states,
but the price list is empty: `create_stocks` removed "X" from the shared
list before `create_prices` ran. The second conjunct shows price derivation
over the original list would have produced the spec's price entry. -/
theorem main_pipeline_end_to_end :
    main_pipeline [⟨"X", "5", "1\x27200.00 руб."⟩] ["X", "Y"] =
      some ([⟨"X", 5⟩, ⟨"Y", 0⟩], []) ∧
    create_prices [⟨"X", "5", "1\x27200.00 руб."⟩] ["X", "Y"] =
      [⟨"UNKNOWN", "RUB", "X", "0", "1200"⟩] :=
  ⟨by decide, by decide⟩

/-- C2 counterexample: with the duplicate offer-id list ["X","X"] and a feed
matching "X", the list left behind by `create_stocks` is ["X"], which still
contains an id whose code matched a feed record — refuting the claim for
arbitrary offer-id lists. -/
theorem create_stocks_dup_matched_id_kept :
    create_stocks [⟨"X", "5", "1.00"⟩] ["X", "X"] =
      some ([⟨"X", 5⟩, ⟨"X", 0⟩], ["X"]) ∧
    ¬ (∀ id ∈ (["X"] : List String),
        ∀ w ∈ ([⟨"X", "5", "1.00"⟩] : List WatchRecord), w.code ≠ id) :=
  ⟨by decide, by decide⟩

/-- C2 (amended): for a duplicate-free offer-id list, on normal completion
the caller's list after `create_stocks` is exactly the original ids whose
code matches no feed record, in their original relative order. -/
theorem create_stocks_remaining_unmatched (ws : List WatchRecord) (ids : List String)
    (st : List StockUpdate) (rem : List String) (hnd : ids.Nodup)
    (h : create_stocks ws ids = some (st, rem)) :
    rem = ids.filter (fun id => ws.all (fun w => w.code != id)) := by
  obtain ⟨st1, hr, _⟩ := create_stocks_eq ws ids st rem h
  exact create_stocks_loop_remaining ws ids st1 rem hnd hr

/-- Witness for `create_stocks_remaining_unmatched` at a concrete input. -/
theorem create_stocks_remaining_unmatched_witness :
    (["X", "Y"] : List String).Nodup ∧
    create_stocks [⟨"X", "5", "1.00"⟩] ["X", "Y"] = some ([⟨"X", 5⟩, ⟨"Y", 0⟩], ["Y"]) ∧
    ["Y"] = (["X", "Y"] : List String).filter
        (fun id => ([⟨"X", "5", "1.00"⟩] : List WatchRecord).all (fun w => w.code != id)) :=
  ⟨by decide, by decide,
    create_stocks_remaining_unmatched [⟨"X", "5", "1.00"⟩] ["X", "Y"]
      [⟨"X", 5⟩, ⟨"Y", 0⟩] ["Y"] (by decide) (by decide)⟩

/-- C3 counterexample: with the duplicate catalog list ["X","X"] and an empty
feed, the stock list mentions "X" twice, not exactly once. -/
theorem create_stocks_dup_id_twice :
    create_stocks [] ["X", "X"] = some ([⟨"X", 0⟩, ⟨"X", 0⟩], ["X", "X"]) ∧
    (([⟨"X", 0⟩, ⟨"X", 0⟩] : List StockUpdate).map (fun u => u.offer_id)).count "X" = 2 :=
  ⟨by decide, by decide⟩

/-- C3 (amended): for a duplicate-free catalog list, on normal completion
every catalog offer id appears exactly once in the stock list, every stock
entry is for a catalog id, and every price entry is for a catalog id (feed
records matching no catalog id contribute to neither list). -/
theorem create_stocks_catalog_invariant (ws : List WatchRecord) (ids : List String)
    (st : List StockUpdate) (rem : List String) (hnd : ids.Nodup)
    (h : create_stocks ws ids = some (st, rem)) :
    (∀ id ∈ ids, (st.map (fun u => u.offer_id)).count id = 1) ∧
    (∀ u ∈ st, u.offer_id ∈ ids) ∧
    (∀ p ∈ create_prices ws ids, p.offer_id ∈ ids) := by
  obtain ⟨st1, hr, hst⟩ := create_stocks_eq ws ids st rem h
  have hperm : (st.map (fun u => u.offer_id)).Perm ids := by
    subst hst
    rw [List.map_append]
    have h2 := map_offer_id_zeros rem
    rw [h2]
    exact create_stocks_loop_perm ws ids st1 rem hr
  refine ⟨?_, ?_, ?_⟩
  · intro id hid
    rw [hperm.count_eq]
    exact List.count_eq_one_of_mem hnd hid
  · intro u hu
    exact hperm.mem_iff.mp (List.mem_map_of_mem _ hu)
  · intro p hp
    exact (create_prices_mem ws ids p hp).2.2.2.1

/-- Witness for `create_stocks_catalog_invariant` at a concrete input. -/
theorem create_stocks_catalog_invariant_witness :
    (["X", "Y"] : List String).Nodup ∧
    create_stocks [⟨"X", "5", "1.00"⟩] ["X", "Y"] = some ([⟨"X", 5⟩, ⟨"Y", 0⟩], ["Y"]) ∧
    ((∀ id ∈ (["X", "Y"] : List String),
        (([⟨"X", 5⟩, ⟨"Y", 0⟩] : List StockUpdate).map (fun u => u.offer_id)).count id = 1) ∧
      (∀ u ∈ ([⟨"X", 5⟩, ⟨"Y", 0⟩] : List StockUpdate), u.offer_id ∈ (["X", "Y"] : List String)) ∧
      (∀ p ∈ create_prices [⟨"X", "5", "1.00"⟩] ["X", "Y"],
        p.offer_id ∈ (["X", "Y"] : List String))) :=
  ⟨by decide, by decide,
    create_stocks_catalog_invariant [⟨"X", "5", "1.00"⟩] ["X", "Y"]
      [⟨"X", 5⟩, ⟨"Y", 0⟩] ["Y"] (by decide) (by decide)⟩

/-- C4: every stock entry either stems from a feed record with the matching
code and carries 100 for quantity ">10", 0 for quantity "1", or the integer
parse of the quantity, or is a zero default; every id left unmatched gets a
zero entry; and on the spec's instance (ids {"A","B","C"}, feed
[{A,">10"},{B,"1"}]) the result is exactly {A:100, B:0, C:0}. -/
theorem create_stocks_stock_rule :
    (∀ (ws : List WatchRecord) (ids : List String) (st : List StockUpdate) (rem : List String),
        create_stocks ws ids = some (st, rem) →
        (∀ u ∈ st,
          (∃ w ∈ ws, w.code = u.offer_id ∧
            ((w.qty = ">10" ∧ u.stock = 100) ∨
              (w.qty = "1" ∧ u.stock = 0) ∨
              (w.qty ≠ ">10" ∧ w.qty ≠ "1" ∧ pyInt w.qty = some u.stock))) ∨
          u.stock = 0) ∧
        (∀ id ∈ rem, (⟨id, 0⟩ : StockUpdate) ∈ st)) ∧
    create_stocks [⟨"A", ">10", "0"⟩, ⟨"B", "1", "0"⟩] ["A", "B", "C"] =
      some ([⟨"A", 100⟩, ⟨"B", 0⟩, ⟨"C", 0⟩], ["C"]) := by
  constructor
  · intro ws ids st rem h
    obtain ⟨st1, hr, hst⟩ := create_stocks_eq ws ids st rem h
    constructor
    · intro u hu
      subst hst
      rcases List.mem_append.mp hu with h0 | h0
      · left
        obtain ⟨w, hw, he, hs⟩ := create_stocks_loop_mem ws ids st1 rem hr u h0
        refine ⟨w, hw, he, ?_⟩
        unfold stock_of_qty at hs
        by_cases h1 : w.qty = ">10"
        · rw [if_pos h1] at hs
          left
          exact ⟨h1, by injection hs with h2; exact h2.symm⟩
        · rw [if_neg h1] at hs
          by_cases h2 : w.qty = "1"
          · rw [if_pos h2] at hs
            right; left
            exact ⟨h2, by injection hs with h3; exact h3.symm⟩
          · rw [if_neg h2] at hs
            right; right
            exact ⟨h1, h2, hs⟩
      · right
        obtain ⟨id, _, he⟩ := List.mem_map.mp h0
        rw [← he]
    · intro id hid
      subst hst
      exact List.mem_append_right _ (List.mem_map_of_mem _ hid)
  · decide

/-- C5 counterexample: reconciliation run a second time on the offer-id list
as the first run left it (the caller's same list object) yields different
stock and price lists whenever a feed record matched. -/
theorem reconcile_second_run_differs :
    create_stocks [⟨"X", "5", "1\x27200.00 руб."⟩] ["X"] = some ([⟨"X", 5⟩], []) ∧
    create_stocks [⟨"X", "5", "1\x27200.00 руб."⟩] [] = some ([], []) ∧
    ([⟨"X", 5⟩] : List StockUpdate) ≠ [] ∧
    create_prices [⟨"X", "5", "1\x27200.00 руб."⟩] ["X"] ≠
      create_prices [⟨"X", "5", "1\x27200.00 руб."⟩] [] :=
  ⟨by decide, by decide, by decide, by decide⟩

/-- C5 (amended): when no feed record matches any known offer id, the list
is left unchanged and rerunning both derivations on the post-run list
reproduces the first run's outputs exactly (the derivations themselves are
deterministic functions of their argument values). -/
theorem reconcile_rerun_no_match (ws : List WatchRecord) (ids : List String)
    (st : List StockUpdate) (rem : List String)
    (hnm : ∀ w ∈ ws, w.code ∉ ids)
    (h : create_stocks ws ids = some (st, rem)) :
    create_stocks ws rem = some (st, rem) ∧
    create_prices ws rem = create_prices ws ids := by
  have hl : create_stocks_loop ws ids = some ([], ids) := create_stocks_loop_no_match ws ids hnm
  have hcs : create_stocks ws ids = some (ids.map (fun id => ⟨id, 0⟩), ids) := by
    unfold create_stocks
    rw [hl]
    simp
  rw [h] at hcs
  simp only [Option.some.injEq, Prod.mk.injEq] at hcs
  obtain ⟨h1, h2⟩ := hcs
  subst h2
  exact ⟨h, rfl⟩

/-- Witness for `reconcile_rerun_no_match` at a concrete input. -/
theorem reconcile_rerun_no_match_witness :
    (∀ w ∈ ([⟨"Z", "5", "1.00"⟩] : List WatchRecord), w.code ∉ (["X"] : List String)) ∧
    create_stocks [⟨"Z", "5", "1.00"⟩] ["X"] = some ([⟨"X", 0⟩], ["X"]) ∧
    (create_stocks [⟨"Z", "5", "1.00"⟩] ["X"] = some ([⟨"X", 0⟩], ["X"]) ∧
      create_prices [⟨"Z", "5", "1.00"⟩] ["X"] = create_prices [⟨"Z", "5", "1.00"⟩] ["X"]) :=
  ⟨by decide, by decide,
    reconcile_rerun_no_match [⟨"Z", "5", "1.00"⟩] ["X"] [⟨"X", 0⟩] ["X"]
      (by decide) (by decide)⟩

/-- C6 counterexample: a feed quantity "-5" is neither ">10" nor "1", so it
is handed to `int(...)`, producing the negative stock value -5. -/
theorem create_stocks_negative_stock :
    create_stocks [⟨"X", "-5", "1.00"⟩] ["X"] = some ([⟨"X", -5⟩], []) ∧
    ¬ (0 ≤ (-5 : Int)) :=
  ⟨by decide, by decide⟩

/-- C6 (amended): every stock value is non-negative provided each feed
quantity that parses as an integer parses to a non-negative one. -/
theorem create_stocks_stock_nonneg (ws : List WatchRecord) (ids : List String)
    (st : List StockUpdate) (rem : List String)
    (hq : ∀ w ∈ ws, 0 ≤ (pyInt w.qty).getD 0)
    (h : create_stocks ws ids = some (st, rem)) :
    ∀ u ∈ st, 0 ≤ u.stock := by
  obtain ⟨st1, hr, hst⟩ := create_stocks_eq ws ids st rem h
  subst hst
  intro u hu
  rcases List.mem_append.mp hu with h0 | h0
  · obtain ⟨w, hw, _, hs⟩ := create_stocks_loop_mem ws ids st1 rem hr u h0
    unfold stock_of_qty at hs
    by_cases h1 : w.qty = ">10"
    · rw [if_pos h1] at hs
      injection hs with h2
      rw [← h2]
      omega
    · rw [if_neg h1] at hs
      by_cases h2 : w.qty = "1"
      · rw [if_pos h2] at hs
        injection hs with h3
        rw [← h3]
      · rw [if_neg h2] at hs
        have := hq w hw
        rw [hs] at this
        simpa using this
  · obtain ⟨id, _, he⟩ := List.mem_map.mp h0
    rw [← he]

/-- Witness for `create_stocks_stock_nonneg` at a concrete input. -/
theorem create_stocks_stock_nonneg_witness :
    (∀ w ∈ ([⟨"A", ">10", "0"⟩, ⟨"B", "7", "0"⟩] : List WatchRecord),
        0 ≤ (pyInt w.qty).getD 0) ∧
    create_stocks [⟨"A", ">10", "0"⟩, ⟨"B", "7", "0"⟩] ["A", "B"] =
      some ([⟨"A", 100⟩, ⟨"B", 7⟩], []) ∧
    ∀ u ∈ ([⟨"A", 100⟩, ⟨"B", 7⟩] : List StockUpdate), 0 ≤ u.stock :=
  ⟨by decide, by decide,
    create_stocks_stock_nonneg [⟨"A", ">10", "0"⟩, ⟨"B", "7", "0"⟩] ["A", "B"]
      [⟨"A", 100⟩, ⟨"B", 7⟩] [] (by decide) (by decide)⟩

/-- C7: `price_conversion` keeps exactly the digits of the part of its input
before the first "." (for every input string), and the spec's two examples
evaluate as stated. -/
theorem price_conversion_spec :
    (∀ s : String, price_conversion s =
        String.mk ((s.toList.takeWhile (fun a => a != '.')).filter Char.isDigit)) ∧
    price_conversion "5\x27990.00 руб." = "5990" ∧
    price_conversion "0.00 руб." = "0" := by
  refine ⟨?_, by decide, by decide⟩
  intro s
  unfold price_conversion
  rw [splitOnChar_headD]

/-- C8: every price entry carries currency "RUB", old_price "0",
auto_action_enabled "UNKNOWN", a catalog offer id and the converted price of
a matching feed record; and dropping the feed records whose code is not a
known offer id leaves the price list unchanged (they emit nothing). -/
theorem create_prices_spec (ws : List WatchRecord) (ids : List String) :
    (∀ p ∈ create_prices ws ids,
        p.currency_code = "RUB" ∧ p.old_price = "0" ∧ p.auto_action_enabled = "UNKNOWN" ∧
        p.offer_id ∈ ids ∧
        ∃ w ∈ ws, w.code = p.offer_id ∧ p.price = price_conversion w.price) ∧
    create_prices (ws.filter (fun w => decide (w.code ∈ ids))) ids = create_prices ws ids := by
  refine ⟨?_, create_prices_filter_matched ws ids⟩
  intro p hp
  obtain ⟨a, b, c, d, e⟩ := create_prices_mem ws ids p hp
  exact ⟨b, c, a, d, e⟩

/-- C9: for every positive chunk size, `divide` yields nonempty chunks of at
most the requested size whose concatenation is the input, all chunks except
possibly the last having exactly the requested size. -/
theorem divide_spec (α : Type) (lst : List α) (n : Nat) (hn : 0 < n) :
    (divide lst n).flatten = lst ∧
    (∀ c ∈ divide lst n, 0 < c.length ∧ c.length ≤ n) ∧
    (∀ c ∈ (divide lst n).dropLast, c.length = n) := by
  unfold divide
  rw [if_neg (Nat.pos_iff_ne_zero.mp hn)]
  exact ⟨divideAux_join n hn lst.length lst le_rfl,
    divideAux_chunk_bounds n hn lst.length lst le_rfl,
    divideAux_dropLast_length n hn lst.length lst le_rfl⟩

set_option maxRecDepth 40000 in
/-- Witness for `divide_spec`: a 250-element list divided with n = 100
yields exactly three chunks of sizes 100, 100, 50, in original order. -/
theorem divide_spec_witness :
    0 < 100 ∧
    ((divide (List.range 250) 100).flatten = List.range 250 ∧
      (∀ c ∈ divide (List.range 250) 100, 0 < c.length ∧ c.length ≤ 100) ∧
      (∀ c ∈ (divide (List.range 250) 100).dropLast, c.length = 100)) ∧
    (divide (List.range 250) 100).map List.length = [100, 100, 50] :=
  ⟨by decide, divide_spec Nat (List.range 250) 100 (by decide), by decide⟩

/-- C10: with the server modelled as an arbitrary response sequence, the
offer-id enumeration loop terminates (for some fuel) exactly when at some
iteration the reported total equals the accumulated item count; when that
equality never holds, every fuel bound is exhausted — the loop runs
forever. -/
theorem get_offer_ids_terminates_iff (server : Nat → ProductListResult) :
    ((∃ fuel, (get_offer_ids_loop server fuel 0 []).isSome = true) ↔
      ∃ k, (server k).total = (accCount server (k + 1) : Int)) ∧
    ((∀ k, (server k).total ≠ (accCount server (k + 1) : Int)) →
      ∀ fuel, get_offer_ids_loop server fuel 0 [] = none) := by
  constructor
  · constructor
    · rintro ⟨fuel, hf⟩
      exact get_offer_ids_loop_some server fuel 0 [] rfl hf
    · rintro ⟨k, hk⟩
      exact ⟨k + 1,
        get_offer_ids_loop_reaches server k hk (k + 1) 0 [] rfl (Nat.zero_le k) (by omega)⟩
  · intro hnever fuel
    by_contra hne
    have hs : (get_offer_ids_loop server fuel 0 []).isSome = true := by
      cases hx : get_offer_ids_loop server fuel 0 [] with
      | none => exact absurd hx hne
      | some v => rfl
    obtain ⟨j, hj⟩ := get_offer_ids_loop_some server fuel 0 [] rfl hs
    exact hnever j hj

end Seller
